import Mathlib

/-!
Verification of the namespace-churn analysis script
(`scripts/dotnet-namespace-churn.py`).

The Python source is shallowly embedded: every definition below is a
direct translation of a function (or a regex used by a function) of the
script.  Python `int` values arising in this program are change counts;
they are modelled as `Nat` where the data flow guarantees non-negativity
and as `Int` where the source can produce negative values (the result of
`int(...)` parsing).  Python `float` division (`/`) is modelled as exact
division over `ℚ`, and float literals `0.7` / `0.8` as the rationals
`7/10` / `4/5`.  Python strings are modelled as `List Char` when character
level processing matters, and as `String` when only equality is used.
Regex searching (`re.search` with `re.MULTILINE`) is modelled by trying
the anchored pattern at every line start, leftmost first; for the three
patterns of this script the character classes of adjacent pieces are
disjoint, so greedy matching without backtracking is exact.
-/

namespace ChurnScript

/-! ## PatternDetector (source lines 147–203) -/

/-- Embeds `PatternDetector.detect_pattern` (source lines 150–185).
The source compares real ratios: `additions / total >= 0.7`,
`deletions >= additions * 0.8`, and so on.  With `total > 0` (guaranteed
by the first guard) these comparisons are equivalent to the
denominators-cleared integer comparisons used here
(`10 * additions ≥ 7 * total`, `5 * deletions ≥ 4 * additions`);
the theorem for claim C1 proves this embedding equal to the literal
division-based reading `detectPatternSpec` over `ℚ`. -/
def detect_pattern (additions deletions : Nat) : String :=
  let total := additions + deletions
  if total = 0 then ("normal")
  else if 10 * additions ≥ 7 * total then ("growth")
  else if 10 * deletions ≥ 7 * total then ("cleanup")
  else if additions > 600 ∧ deletions > 600 ∧
          5 * deletions ≥ 4 * additions ∧
          5 * additions ≥ 4 * deletions then ("churn")
  else ("normal")

/-- Embeds `PatternDetector.get_pattern_indicator` (source lines 187–203). -/
def get_pattern_indicator (pattern : String) : String :=
  if pattern = "churn" then ("⚡")
  else if pattern = "growth" then ("📈")
  else if pattern = "cleanup" then ("📉")
  else if pattern = "normal" then ("")
  else ("")

/-- The classification rules exactly as the specification words them
(§4.3, rule order, first match wins).  Used as the comparison point for
the refinement claim about `detect_pattern`. -/
def detectPatternSpec (additions deletions : Nat) : String :=
  if additions + deletions = 0 then ("normal")
  else if (additions : ℚ) / ((additions : ℚ) + (deletions : ℚ)) ≥ 7/10 then ("growth")
  else if (deletions : ℚ) / ((additions : ℚ) + (deletions : ℚ)) ≥ 7/10 then ("cleanup")
  else if additions > 600 ∧ deletions > 600 ∧
          (deletions : ℚ) ≥ (8/10) * (additions : ℚ) ∧
          (additions : ℚ) ≥ (8/10) * (deletions : ℚ) then ("churn")
  else ("normal")

/-! ## Character-level helpers

Python's `str.strip()`, `str.split('\t')` and `int(...)` are modelled over
`List Char`.  The whitespace set is the ASCII part of Python's, and digits
are ASCII digits (the script only ever feeds it git output and source
text). -/

/-- The ASCII whitespace characters recognised by Python's `str.strip()`
and by the regex class `\s`. -/
def isSpaceChar (c : Char) : Bool :=
  c = ' ' || c = '\t' || c = '\n' || c = '\r' || c = '\x0b' || c = '\x0c'

/-- Python `s.strip()`: remove leading and trailing whitespace. -/
def pyStrip (l : List Char) : List Char :=
  ((l.dropWhile isSpaceChar).reverse.dropWhile isSpaceChar).reverse

/-- Python `s.split('\t')`: split on every tab; `"".split('\t') == ['']`. -/
def splitOnTab : List Char → List (List Char)
  | [] => [[]]
  | c :: rest =>
    if c = '\t' then [] :: splitOnTab rest
    else
      match splitOnTab rest with
      | h :: t => (c :: h) :: t
      | [] => [[c]]

/-- Digit run of a Python integer literal: ASCII digits, optionally
grouped by single underscores that must sit between two digits
(`int('5_5') == 55`, `int('5_') `/` int('_5')`/`int('5__5')` all raise). -/
def digitsRun (acc : Nat) : List Char → Option Nat
  | [] => some acc
  | c :: rest =>
    if c.isDigit then digitsRun (10 * acc + (c.toNat - 48)) rest
    else if c = '_' then
      match rest with
      | d :: rest' =>
        if d.isDigit then digitsRun (10 * acc + (d.toNat - 48)) rest'
        else none
      | [] => none
    else none

/-- Python `int(s)` on an ASCII string: strip surrounding whitespace,
accept an optional `+`/`-` sign immediately followed by a digit run.
Note a *negative* count string such as `"-5"` parses successfully. -/
def pyInt (s : List Char) : Option Int :=
  let t := pyStrip s
  match t with
  | [] => none
  | '-' :: rest =>
    (match rest with
     | c :: _ => if c.isDigit then (digitsRun 0 rest).map (fun n => -(n : Int)) else none
     | [] => none)
  | '+' :: rest =>
    (match rest with
     | c :: _ => if c.isDigit then (digitsRun 0 rest).map (fun n => (n : Int)) else none
     | [] => none)
  | c :: _ => if c.isDigit then (digitsRun 0 t).map (fun n => (n : Int)) else none

/-! ## GitLogParser (source lines 111–144) -/

/-- Embeds `GitLogParser.parse_numstat_line` (source lines 114–140): strip the
line, split on tabs, require exactly three fields, reject the binary
marker `-` in either count field, then parse both counts with `int`. -/
def parse_numstat_line (line : List Char) : Option (Int × Int × List Char) :=
  match splitOnTab (pyStrip line) with
  | [added, deleted, filepath] =>
    if added = ['-'] ∨ deleted = ['-'] then none
    else
      match pyInt added, pyInt deleted with
      | some a, some d => some (a, d, filepath)
      | _, _ => none
  | _ => none

/-- Tests whether `l` ends with `suffix` (Python `str.endswith`). -/
def endsWithL (l suffix : List Char) : Bool :=
  decide (suffix.length ≤ l.length) &&
    decide (l.drop (l.length - suffix.length) = suffix)

/-- Embeds `GitLogParser.is_dotnet_file` (source lines 142–144). -/
def isDotnetFile (filepath : List Char) : Bool :=
  endsWithL filepath (".cs".toList) || endsWithL filepath (".vb".toList)

/-! ## ChurnAggregator (source lines 206–330)

Python dicts are insertion ordered; they are modelled as association
lists where a fresh key is appended at the end and an update rewrites
the value of the first (unique) matching key.  The change counts flowing
into the aggregator are the per-file added/deleted line counts, which
the spec's data model declares non-negative, so they are `Nat` here. -/

/-- A per-file entry of a `NamespaceAggregate`'s `files` list
(source lines 286–291). -/
structure FileDetail where
  path : String
  additions : Nat
  deletions : Nat
  total : Nat
deriving DecidableEq

/-- A `NamespaceAggregate` (source lines 271–278). -/
structure NSAgg where
  additions : Nat
  deletions : Nat
  total : Nat
  file_count : Nat
  files : List FileDetail
  pattern : String
deriving DecidableEq

/-- One input tuple `(namespace, additions, deletions, filepath)` of
`aggregate_with_details` (source line 256). -/
structure Change where
  ns : String
  additions : Nat
  deletions : Nat
  path : String
deriving DecidableEq

/-- The file-detail dict appended for one change (source lines 286–291). -/
def mkFD (c : Change) : FileDetail :=
  ⟨c.path, c.additions, c.deletions, c.additions + c.deletions⟩

/-- Dict read: value of the first entry with the given key. -/
def lookupNS (ns : String) : List (String × NSAgg) → Option NSAgg
  | [] => none
  | (k, v) :: rest => if k = ns then some v else lookupNS ns rest

/-- Dict write on an existing key: rewrite the first matching entry. -/
def updateNS (ns : String) (f : NSAgg → NSAgg) :
    List (String × NSAgg) → List (String × NSAgg)
  | [] => []
  | (k, v) :: rest =>
    if k = ns then (k, f v) :: rest else (k, v) :: updateNS ns f rest

/-- The body of the `for namespace, additions, deletions, filepath in
changes` loop of `aggregate_with_details` (source lines 269–291):
initialise the namespace's entry on first sight, then accumulate. -/
def stepAgg (acc : List (String × NSAgg)) (c : Change) :
    List (String × NSAgg) :=
  match lookupNS c.ns acc with
  | none =>
    acc ++ [(c.ns, ⟨c.additions, c.deletions, c.additions + c.deletions,
                    1, [mkFD c], "normal"⟩)]
  | some _ =>
    updateNS c.ns (fun agg =>
      ⟨agg.additions + c.additions, agg.deletions + c.deletions,
       agg.total + (c.additions + c.deletions), agg.file_count + 1,
       agg.files ++ [mkFD c], agg.pattern⟩) acc

/-- Stable insertion of `x` into a descending-by-`total` list: skip the
strictly larger elements, so an element equal to `x` that was already in
the list (i.e. appeared earlier in the input) stays in front of `x`. -/
def insertDesc (x : FileDetail) : List FileDetail → List FileDetail
  | [] => [x]
  | y :: ys =>
    if y.total > x.total then y :: insertDesc x ys else x :: y :: ys

/-- Embeds `files.sort(key=lambda x: x['total'], reverse=True)` (source lines
296–299): Python's sort is stable; descending by `total`, ties keep
their original relative order. -/
def sortDesc : List FileDetail → List FileDetail
  | [] => []
  | x :: xs => insertDesc x (sortDesc xs)

/-- The value part of the per-namespace finalisation pass of
`aggregate_with_details` (source lines 294–305): sort the files and
classify the pattern from the namespace's final totals. -/
def finAgg (v : NSAgg) : NSAgg :=
  { v with
      files := sortDesc v.files,
      pattern := detect_pattern v.additions v.deletions }

/-- The finalisation pass applied to one dict entry. -/
def finalizeAgg (e : String × NSAgg) : String × NSAgg :=
  (e.1, finAgg e.2)

/-- Embeds `ChurnAggregator.aggregate_with_details` (source lines 254–307). -/
def aggregate_with_details (changes : List Change) :
    List (String × NSAgg) :=
  (changes.foldl stepAgg []).map finalizeAgg

/-- The files a given namespace receives, in input order: one
`FileDetail` per input tuple naming that namespace. -/
def inputFiles (ns : String) (changes : List Change) : List FileDetail :=
  (changes.filter (fun c => c.ns == ns)).map mkFD

/-- Sum of the additions of the input tuples naming `ns`. -/
def sumAdds (ns : String) (changes : List Change) : Nat :=
  ((changes.filter (fun c => c.ns == ns)).map Change.additions).sum

/-- Sum of the deletions of the input tuples naming `ns`. -/
def sumDels (ns : String) (changes : List Change) : Nat :=
  ((changes.filter (fun c => c.ns == ns)).map Change.deletions).sum

/-! ### Legacy aggregate and the threshold filter (source lines 320–330) -/

/-- A legacy (non-enhanced) aggregate value `{lines_changed, file_count,
files}` (source lines 230–234); `filter_by_threshold` reads only
`lines_changed`. -/
structure LegacyAgg where
  lines_changed : Nat
  file_count : Nat
  files : List (String × Nat)
deriving DecidableEq

/-- Embeds `ChurnAggregator.filter_by_threshold` (source lines 320–330): keep
the namespaces whose `lines_changed` is at least the minimum. -/
def filter_by_threshold (aggregated : List (String × LegacyAgg))
    (min_threshold : Nat) : List (String × LegacyAgg) :=
  aggregated.filter (fun e => min_threshold ≤ e.2.lines_changed)

/-- The inline threshold filter of `NamespaceChurnAnalyzer.analyze` in
enhanced mode (source lines 1083–1088): keep the namespaces whose
`total` is at least the minimum. -/
def filterEnhancedByThreshold (aggregated : List (String × NSAgg))
    (min_threshold : Nat) : List (String × NSAgg) :=
  aggregated.filter (fun e => min_threshold ≤ e.2.total)

/-! ## AuthorshipAnalyzer.calculate_ownership (source lines 515–559) -/

/-- An `OwnershipEntry` (source lines 550–557).  `ownership_percent` is
a Python float computed by true division; modelled in `ℚ`. -/
structure OwnershipEntry where
  primary_author : String
  primary_lines : Nat
  total_lines : Nat
  ownership_percent : ℚ
  all_authors : List (String × Nat)
deriving DecidableEq

/-- Read the first entry of an author→lines dict. -/
def lookupAuthor (a : String) : List (String × Nat) → Option Nat
  | [] => none
  | (k, v) :: rest => if k = a then some v else lookupAuthor a rest

/-- Add `l` lines to author `a` in an author→lines dict, creating the
key with initial value 0 on first sight (source lines 536–539). -/
def bumpAuthor (a : String) (l : Nat) :
    List (String × Nat) → List (String × Nat)
  | [] => [(a, 0 + l)]
  | (k, v) :: rest =>
    if k = a then (k, v + l) :: rest else (k, v) :: bumpAuthor a l rest

/-- The line count an author→lines dict reports for `a` (0 if the
author is absent — an absent author has contributed no lines). -/
def valueOf (a : String) (authors : List (String × Nat)) : Nat :=
  (lookupAuthor a authors).getD 0

/-- Read the first entry of the namespace→authors dict. -/
def lookupNsAuthors (ns : String) :
    List (String × List (String × Nat)) → Option (List (String × Nat))
  | [] => none
  | (k, v) :: rest => if k = ns then some v else lookupNsAuthors ns rest

/-- Rewrite the first entry of the namespace→authors dict. -/
def updateNsAuthors (ns : String) (f : List (String × Nat) → List (String × Nat)) :
    List (String × List (String × Nat)) → List (String × List (String × Nat))
  | [] => []
  | (k, v) :: rest =>
    if k = ns then (k, f v) :: rest else (k, v) :: updateNsAuthors ns f rest

/-- One observation of the nested loop of `calculate_ownership`:
`(author, namespace, lines)`.  The nested
`for author ... for namespace, filepath, lines ...` loop (source lines
531–539) visits these in order, so the loop is embedded as a fold over
the flattened observation list. -/
def obsOf (author_changes : List (String × List (String × String × Nat))) :
    List (String × String × Nat) :=
  author_changes.flatMap (fun e => e.2.map (fun c => (e.1, c.1, c.2.2)))

/-- The body of that nested loop (source lines 532–539). -/
def stepObs (na : List (String × List (String × Nat)))
    (o : String × String × Nat) : List (String × List (String × Nat)) :=
  match lookupNsAuthors o.2.1 na with
  | none => na ++ [(o.2.1, bumpAuthor o.1 o.2.2 [])]
  | some _ => updateNsAuthors o.2.1 (bumpAuthor o.1 o.2.2) na

/-- The `namespace_authors` dict built by `calculate_ownership`
(source lines 528–539). -/
def namespaceAuthors (author_changes : List (String × List (String × String × Nat))) :
    List (String × List (String × Nat)) :=
  (obsOf author_changes).foldl stepObs []

/-- Python `max(items, key=lambda x: x[1])` over a nonempty dict's
items: the first item with the (strictly) largest value wins, because
`max` replaces the current best only on a strictly greater key. -/
def pyMaxSnd : List (String × Nat) → Option (String × Nat)
  | [] => none
  | x :: xs =>
    some (xs.foldl (fun best y => if y.2 > best.2 then y else best) x)

/-- The ownership entry built for one namespace (source lines 544–557).
`authors` is never empty when reached from `calculate_ownership`; the
empty case (on which Python's `max` would raise) yields a placeholder. -/
def mkOwnership (authors : List (String × Nat)) : OwnershipEntry :=
  let total_lines := (authors.map (fun e => e.2)).sum
  match pyMaxSnd authors with
  | some (pa, pl) =>
    ⟨pa, pl, total_lines,
     if total_lines > 0 then (pl : ℚ) / (total_lines : ℚ) * 100 else 0,
     authors⟩
  | none => ⟨"", 0, total_lines, 0, authors⟩

/-- Embeds `AuthorshipAnalyzer.calculate_ownership` (source lines 515–559). -/
def calculate_ownership
    (author_changes : List (String × List (String × String × Nat))) :
    List (String × OwnershipEntry) :=
  (namespaceAuthors author_changes).map (fun e => (e.1, mkOwnership e.2))

/-- Read the first entry of the ownership result. -/
def lookupOwnership (ns : String) :
    List (String × OwnershipEntry) → Option OwnershipEntry
  | [] => none
  | (k, v) :: rest => if k = ns then some v else lookupOwnership ns rest

/-- Total lines observed for author `a` in namespace `ns` across the
whole input: the sums the loop of `calculate_ownership` accumulates. -/
def authorNsSum (a ns : String)
    (author_changes : List (String × List (String × String × Nat))) : Nat :=
  (((obsOf author_changes).filter
      (fun o => o.1 == a && o.2.1 == ns)).map (fun o => o.2.2)).sum

/-- Total lines observed for namespace `ns` across the whole input. -/
def nsTotalSum (ns : String)
    (author_changes : List (String × List (String × String × Nat))) : Nat :=
  (((obsOf author_changes).filter (fun o => o.2.1 == ns)).map
      (fun o => o.2.2)).sum

/-! ## OutputFormatter indicators (source lines 922–1014) -/

/-- Embeds `OutputFormatter.HOTSPOT_THRESHOLD` (source line 926). -/
def HOTSPOT_THRESHOLD : Nat := 1000

/-- Embeds `OutputFormatter.WARNING_THRESHOLD` (source line 927). -/
def WARNING_THRESHOLD : Nat := 500

/-- Embeds `OutputFormatter.get_indicator` (source lines 1001–1008). -/
def get_indicator (lines_changed : Nat) : String :=
  if lines_changed > HOTSPOT_THRESHOLD then ("🔥")
  else if lines_changed > WARNING_THRESHOLD then ("⚠️")
  else ("✓")

/-! ## NamespaceParser (source lines 26–108)

The three regexes all have the shape
`^\s*namespace\s+([\w\.]+)` followed by `\s*;` / `\s*\{` / nothing,
compiled with `re.MULTILINE` (so `^` anchors at the start of the string
and after every newline).  Adjacent pieces use disjoint character
classes (`\s`, the literal, `[\w.]`, the terminator), so the greedy
left-to-right match below is exactly the regex's backtracking match, and
`re.search` returns the match at the leftmost anchor. -/

/-- The regex class `\w` restricted to ASCII: letters, digits, `_`. -/
def isWordChar (c : Char) : Bool := c.isAlpha || c.isDigit || c = '_'

/-- The capture class `[\w\.]` of the namespace regexes. -/
def isWordDot (c : Char) : Bool := isWordChar c || c = '.'

/-- Match a literal character sequence, returning the rest on success. -/
def stripLit : List Char → List Char → Option (List Char)
  | s, [] => some s
  | [], _ :: _ => none
  | c :: s, l :: ls => if c = l then stripLit s ls else none

/-- Case-insensitive variant of `stripLit` (for the `re.IGNORECASE`
VB.NET pattern). -/
def stripLitCI : List Char → List Char → Option (List Char)
  | s, [] => some s
  | [], _ :: _ => none
  | c :: s, l :: ls => if c.toLower = l.toLower then stripLitCI s ls else none

/-- Attempt `\s*namespace\s+([\w\.]+)\s*T` at the current position,
where `T` is the terminator (`;` for `CSHARP_FILE_SCOPED`, `{` for
`CSHARP_TRADITIONAL`, source lines 30–37); returns the capture group. -/
def matchCsDecl (term : Char) (s : List Char) : Option (List Char) :=
  let s1 := s.dropWhile isSpaceChar
  match stripLit s1 ("namespace".toList) with
  | none => none
  | some s2 =>
    match s2 with
    | [] => none
    | c :: _ =>
      if isSpaceChar c then
        let s3 := s2.dropWhile isSpaceChar
        let cap := s3.takeWhile isWordDot
        if cap = [] then none
        else
          match (s3.dropWhile isWordDot).dropWhile isSpaceChar with
          | t :: _ => if t = term then some cap else none
          | [] => none
      else none

/-- Attempt `\s*Namespace\s+([\w\.]+)` case-insensitively at the current
position (`VBNET_NAMESPACE`, source lines 38–41). -/
def matchVbDecl (s : List Char) : Option (List Char) :=
  let s1 := s.dropWhile isSpaceChar
  match stripLitCI s1 ("namespace".toList) with
  | none => none
  | some s2 =>
    match s2 with
    | [] => none
    | c :: _ =>
      if isSpaceChar c then
        let s3 := s2.dropWhile isSpaceChar
        let cap := s3.takeWhile isWordDot
        if cap = [] then none else some cap
      else none

/-- The suffixes of `s` that start just after a newline, in order of
position.  Together with `s` itself these are exactly the positions at
which a `re.MULTILINE`-anchored `^` pattern may match. -/
def tailAnchors : List Char → List (List Char)
  | [] => []
  | c :: rest =>
    if c = '\n' then rest :: tailAnchors rest else tailAnchors rest

/-- All anchor suffixes of `s`, leftmost first. -/
def anchorsOf (s : List Char) : List (List Char) := s :: tailAnchors s

/-- First successful result in a list of attempts. -/
def firstSome : List (Option α) → Option α
  | [] => none
  | some x :: _ => some x
  | none :: rest => firstSome rest

/-- Models `re.search` of a `^`-anchored multiline pattern: try the matcher at
every anchor, leftmost match wins. -/
def searchAnchored (m : List Char → Option (List Char)) (s : List Char) :
    Option (List Char) :=
  firstSome ((anchorsOf s).map m)

/-- Embeds `NamespaceParser._extract_csharp_namespace` (source lines 88–100):
the file-scoped (semicolon) form is tried over the whole text first,
then the traditional (brace) form. -/
def extract_csharp_namespace (content : List Char) : List Char :=
  match searchAnchored (matchCsDecl ';') content with
  | some cap => cap
  | none =>
    match searchAnchored (matchCsDecl '\x7b') content with
    | some cap => cap
    | none => "(global)".toList

/-- Embeds `NamespaceParser._extract_vbnet_namespace` (source lines 102–108). -/
def extract_vbnet_namespace (content : List Char) : List Char :=
  match searchAnchored matchVbDecl content with
  | some cap => cap
  | none => "(global)".toList

/-- Truncate one line at the first occurrence of the comment marker `m`
(the effect of `re.sub(r'//.*$', '', line)` on a single line). -/
def cutLineComment (m : List Char) : List Char → List Char
  | [] => []
  | c :: rest =>
    if (stripLit (c :: rest) m).isSome then []
    else c :: cutLineComment m rest

/-- Split on newlines (keeping empty pieces), like `str.split('\n')`. -/
def splitOnNl : List Char → List (List Char)
  | [] => [[]]
  | c :: rest =>
    if c = '\n' then [] :: splitOnNl rest
    else
      match splitOnNl rest with
      | h :: t => (c :: h) :: t
      | [] => [[c]]

/-- Join lines with newlines (inverse of `splitOnNl`). -/
def joinNl : List (List Char) → List Char
  | [] => []
  | [l] => l
  | l :: rest => l ++ '\n' :: joinNl rest

/-- Models `re.sub(r'//.*$', '', content, flags=re.MULTILINE)` (and the VB
variant with marker `'`): on each line, delete from the first marker to
the end of the line. -/
def removeLineComments (m : List Char) (content : List Char) : List Char :=
  joinNl ((splitOnNl content).map (cutLineComment m))

/-- Worker for `re.sub(r'/\*.*?\*/', '', content, flags=re.DOTALL)`.
In state `none` we are outside a comment; in state `some pending` we are
scanning for the closing `*/`, with the consumed characters (in reverse)
kept so that an unterminated `/*` — which the non-greedy regex leaves in
place — can be emitted unchanged at end of input. -/
def rbcAux : Option (List Char) → List Char → List Char
  | none, [] => []
  | none, '/' :: '*' :: rest => rbcAux (some ['*', '/']) rest
  | none, c :: rest => c :: rbcAux none rest
  | some _, '*' :: '/' :: rest => rbcAux none rest
  | some pending, c :: rest => rbcAux (some (c :: pending)) rest
  | some pending, [] => pending.reverse

/-- Models `re.sub(r'/\*.*?\*/', '', content, flags=re.DOTALL)`: remove each
block comment from `/*` to the nearest following `*/`. -/
def removeBlockComments (content : List Char) : List Char :=
  rbcAux none content

/-- Embeds `NamespaceParser._remove_comments` (source lines 71–86): for `.cs`
remove line comments then block comments; for `.vb` remove `'` line
comments; otherwise leave the content unchanged. -/
def remove_comments (content filepath : List Char) : List Char :=
  if endsWithL filepath (".cs".toList) then
    removeBlockComments (removeLineComments ['/', '/'] content)
  else if endsWithL filepath (".vb".toList) then
    removeLineComments ['\''] content
  else content

/-- Embeds `NamespaceParser.extract_namespace` (source lines 43–69). -/
def extract_namespace (content filepath : List Char) : List Char :=
  if pyStrip content = [] then ("(global)".toList)
  else
    let content := remove_comments content filepath
    if endsWithL filepath (".cs".toList) then
      extract_csharp_namespace content
    else if endsWithL filepath (".vb".toList) then
      extract_vbnet_namespace content
    else ("(global)".toList)

/-- The hotspot tally of the summary line of
`ConsoleFormatter.format_enhanced_console` (source line 913):
`sum(1 for _, m in data if m['total'] > 1000)`. -/
def hotspotCount (data : List (String × NSAgg)) : Nat :=
  data.countP (fun e => decide (e.2.total > 1000))

/-- The warning tally of the same summary line (source line 914):
`sum(1 for _, m in data if 500 < m['total'] <= 1000)`. -/
def warningCount (data : List (String × NSAgg)) : Nat :=
  data.countP (fun e => decide (500 < e.2.total ∧ e.2.total ≤ 1000))

/-- The churn tally of the same summary line (source line 915). -/
def churnCount (data : List (String × NSAgg)) : Nat :=
  data.countP (fun e => e.2.pattern == "churn")

/-! ## GitCommandBuilder period validation (source lines 333–373) -/

/-- Embeds `GitCommandBuilder.VALID_PERIODS` (source line 336). -/
def VALID_PERIODS : List String := ["1 month", "3 months", "1 year"]

/-- Embeds `GitCommandBuilder.is_valid_period` (source lines 371–373). -/
def is_valid_period (period : String) : Bool :=
  VALID_PERIODS.contains period

/-- The error message raised by `NamespaceChurnAnalyzer.analyze`
for an invalid period (source lines 1052–1056). -/
def invalidPeriodMessage : String :=
  "Invalid period. Use: 1 month, 3 months, 1 year"

/-- The period check at the head of `NamespaceChurnAnalyzer.analyze`
(source lines 1052–1056).  Everything the method does after the check —
running the external git commands and building the report — is abstracted
as the parameter `rest`: the theorem quantifying over every `rest` shows
the outcome of an invalid-period run does not depend on any external
call. -/
def analyzeChecked (period : String) (rest : Except String String) :
    Except String String :=
  if ¬ is_valid_period period then Except.error invalidPeriodMessage
  else rest

/-- Exit code produced by `main` (source lines 1363–1377): 0 when
`analyze` returns normally, 1 when it raises. -/
def mainExitCode (result : Except String String) : Nat :=
  match result with
  | Except.ok _ => 0
  | Except.error _ => 1

/-- Message printed to the error stream by `main` (source line 1376):
`f"Error: {e}"` on an exception, nothing on success. -/
def mainStderr (result : Except String String) : Option String :=
  match result with
  | Except.ok _ => none
  | Except.error e => some ("Error: " ++ e)

/-! # Theorems -/

/-- C1: for all non-negative integer inputs, `detect_pattern` follows the
spec's rule order with first match winning — `normal` on zero total, then
`growth` at additions ratio ≥ 0.7, then `cleanup` at deletions ratio
≥ 0.7, then `churn` exactly when both counts exceed 600 and each is at
least 80% of the other, else `normal`; in particular
`detect_pattern 1000 900 = churn`, `detect_pattern 1000 800 = churn`
(boundary) and `detect_pattern 1000 799 ≠ churn`. -/
theorem C1_detect_pattern_follows_spec :
    (∀ additions deletions : Nat,
        detect_pattern additions deletions =
          detectPatternSpec additions deletions) ∧
    detect_pattern 1000 900 = "churn" ∧
    detect_pattern 1000 800 = "churn" ∧
    detect_pattern 1000 799 ≠ "churn" := by
  refine ⟨fun a d => ?_, by decide, by decide, by decide⟩
  by_cases h0 : a + d = 0
  · simp [detect_pattern, detectPatternSpec, h0]
  · have htq : (0 : ℚ) < (a : ℚ) + (d : ℚ) := by
      have : 0 < a + d := Nat.pos_of_ne_zero h0
      exact_mod_cast this
    have hdivSeven : ∀ x : Nat,
        ((x : ℚ) / ((a : ℚ) + (d : ℚ)) ≥ 7/10) ↔ 10 * x ≥ 7 * (a + d) := by
      intro x
      rw [ge_iff_le, div_le_div_iff₀ (by norm_num : (0:ℚ) < 10) htq]
      constructor
      · intro h
        have h' : ((7 * (a + d) : Nat) : ℚ) ≤ ((10 * x : Nat) : ℚ) := by
          push_cast
          linarith
        exact_mod_cast h'
      · intro h
        have h' : ((7 * (a + d) : Nat) : ℚ) ≤ ((10 * x : Nat) : ℚ) := by
          exact_mod_cast h
        push_cast at h'
        linarith
    have hpct : ∀ x y : Nat,
        ((x : ℚ) ≥ (8/10) * (y : ℚ)) ↔ 5 * x ≥ 4 * y := by
      intro x y
      rw [ge_iff_le,
          show (8/10 : ℚ) * (y : ℚ) = (8 * (y : ℚ)) / 10 by ring,
          div_le_iff₀ (by norm_num : (0:ℚ) < 10)]
      constructor
      · intro h
        have h' : ((8 * y : Nat) : ℚ) ≤ ((x * 10 : Nat) : ℚ) := by
          push_cast
          linarith
        have := (Nat.cast_le (α := ℚ)).mp h'
        omega
      · intro h
        have h' : ((8 * y : Nat) : ℚ) ≤ ((x * 10 : Nat) : ℚ) :=
          (Nat.cast_le (α := ℚ)).mpr (by omega)
        push_cast at h'
        linarith
    simp only [detect_pattern, detectPatternSpec, hdivSeven, hpct]

/-- C2, counterexample: the claim states that any record returned by
`parse_numstat_line` has non-negative counts (and that a count field
must parse as a *non-negative* integer to be accepted), but the line
`"-5\t23\tpath"` is accepted — its first field is not the single
character `-`, and Python's `int` accepts a sign — producing the
negative added-count `-5`. -/
theorem C2_counterexample :
    parse_numstat_line ("-5\t23\tpath".toList) =
      some (-5, 23, "path".toList) ∧ (-5 : Int) < 0 := by
  constructor <;> decide

/-- C2, amended: `parse_numstat_line` returns a record iff splitting the
*whitespace-stripped* line on tabs yields exactly three fields, neither
count field is the single character `-` (the binary marker), and both
count fields parse as Python integers — which admit an optional sign
and surrounding whitespace, so a returned count may be negative.  The
spec's examples hold: `"45\t23\tapp/services/UserService.cs"` parses to
`(45, 23, "app/services/UserService.cs")` and `"-\t-\tapp/x.png"` is
rejected. -/
theorem C2_parse_numstat_characterisation :
    (∀ (line : List Char) (r : Int × Int × List Char),
        parse_numstat_line line = some r ↔
          ∃ added deleted,
            splitOnTab (pyStrip line) = [added, deleted, r.2.2] ∧
            added ≠ ['-'] ∧ deleted ≠ ['-'] ∧
            pyInt added = some r.1 ∧ pyInt deleted = some r.2.1) ∧
    parse_numstat_line ("45\t23\tapp/services/UserService.cs".toList) =
      some (45, 23, "app/services/UserService.cs".toList) ∧
    parse_numstat_line ("-\t-\tapp/x.png".toList) = none := by
  refine ⟨fun line r => ?_, by decide, by decide⟩
  unfold parse_numstat_line
  rcases hsplit : splitOnTab (pyStrip line) with _ | ⟨a, _ | ⟨d, _ | ⟨p, rest⟩⟩⟩
  · simp
  · simp
  · simp
  · rcases rest with _ | ⟨x, rest⟩
    · by_cases hbin : a = ['-'] ∨ d = ['-']
      · simp only [if_pos hbin]
        constructor
        · intro h
          exact absurd h (by simp)
        · rintro ⟨added, deleted, heq, hna, hnd, _, _⟩
          rcases List.cons.injEq .. ▸ heq with ⟨rfl, h2⟩
          rcases List.cons.injEq .. ▸ h2 with ⟨rfl, _⟩
          rcases hbin with h | h
          · exact absurd h hna
          · exact absurd h hnd
      · simp only [if_neg hbin]
        rcases ha : pyInt a with _ | va <;> rcases hd : pyInt d with _ | vd
        · simp only [Option.some.injEq]
          constructor
          · intro h
            exact absurd h (by simp)
          · rintro ⟨added, deleted, heq, _, _, hpa, _⟩
            injection heq with h1 h2
            subst h1
            rw [ha] at hpa
            exact absurd hpa (by simp)
        · constructor
          · intro h
            exact absurd h (by simp)
          · rintro ⟨added, deleted, heq, _, _, hpa, _⟩
            injection heq with h1 h2
            subst h1
            rw [ha] at hpa
            exact absurd hpa (by simp)
        · constructor
          · intro h
            exact absurd h (by simp)
          · rintro ⟨added, deleted, heq, _, _, _, hpd⟩
            injection heq with h1 h2
            injection h2 with h2 h3
            subst h2
            rw [hd] at hpd
            exact absurd hpd (by simp)
        · simp only [Option.some.injEq]
          constructor
          · rintro rfl
            exact ⟨a, d, rfl, fun h => hbin (Or.inl h),
                   fun h => hbin (Or.inr h), ha, hd⟩
          · rintro ⟨added, deleted, heq, _, _, hpa, hpd⟩
            injection heq with h1 h2
            injection h2 with h2 h3
            subst h1
            subst h2
            rw [ha] at hpa
            rw [hd] at hpd
            injection hpa with hpa
            injection hpd with hpd
            rcases r with ⟨r1, r2, r3⟩
            simp_all
    · simp

/-- Helper for C4: if the matcher fails on every anchor, the anchored
search fails. -/
theorem firstSome_map_eq_none {α β : Type} (m : α → Option β)
    (l : List α) (h : ∀ b ∈ l, m b = none) :
    firstSome (l.map m) = none := by
  induction l with
  | nil => rfl
  | cons x xs ih =>
    have hx := h x (List.mem_cons_self x xs)
    simp only [List.map_cons]
    rw [hx]
    exact ih fun b hb => h b (List.mem_cons_of_mem x hb)

/-- Helper for C4: the anchored search returns the match at the first
anchor on which the matcher succeeds. -/
theorem firstSome_map_first_hit {α β : Type} (m : α → Option β)
    (pre : List α) (a : α) (post : List α) (cap : β)
    (hpre : ∀ b ∈ pre, m b = none) (ha : m a = some cap) :
    firstSome ((pre ++ a :: post).map m) = some cap := by
  induction pre with
  | nil => simp [firstSome, ha]
  | cons x xs ih =>
    have hx := hpre x (List.mem_cons_self x xs)
    simp only [List.cons_append, List.map_cons]
    rw [hx]
    exact ih fun b hb => hpre b (List.mem_cons_of_mem x hb)

/-- C4, counterexample: the claim says the lexically first declaration
wins and a nested inner declaration is never returned; but the
semicolon (file-scoped) form is searched over the whole text *before*
the brace form, so in `namespace Outer {\nnamespace Inner;\n}` the
nested inner file-scoped declaration `Inner` is returned even though
the brace declaration `Outer` comes first in the text. -/
theorem C4_counterexample :
    extract_csharp_namespace ("namespace Outer \x7b\nnamespace Inner;\n\x7d".toList) =
      "Inner".toList ∧
    "Inner".toList ≠ "Outer".toList := by
  constructor <;> decide

/-- C4, amended: extraction tries the semicolon-terminated form over
the entire text first, then the brace-delimited form; *within one form*
the lexically first (leftmost-anchor) declaration wins, so when all
declarations are brace-form — in particular nested
`Outer.Namespace { namespace Inner { ... } }` — the outermost one is
reported; but a semicolon-form declaration anywhere in the text takes
precedence over every brace-form one. -/
theorem C4_extraction_order :
    (∀ (content : List Char) (pre : List (List Char)) (a : List Char)
        (post : List (List Char)) (cap : List Char),
        anchorsOf content = pre ++ a :: post →
        (∀ b ∈ anchorsOf content, matchCsDecl ';' b = none) →
        (∀ b ∈ pre, matchCsDecl '\x7b' b = none) →
        matchCsDecl '\x7b' a = some cap →
        extract_csharp_namespace content = cap) ∧
    extract_csharp_namespace
        ("namespace Outer.Namespace \x7b\nnamespace Inner \x7b\n\x7d\n\x7d".toList) =
      "Outer.Namespace".toList := by
  refine ⟨?_, by decide⟩
  intro content pre a post cap hanch hsemi hpre hmatch
  unfold extract_csharp_namespace searchAnchored
  rw [firstSome_map_eq_none _ _ hsemi, hanch,
      firstSome_map_first_hit _ pre a post cap hpre hmatch]

/-- C4, witness for the amended theorem: on the nested all-brace text
the whole text is the first anchor, no anchor matches the semicolon
form, the first anchor matches the brace form with capture
`Outer.Namespace`, and extraction indeed returns `Outer.Namespace`. -/
theorem C4_extraction_order_witness :
    anchorsOf ("namespace Outer.Namespace \x7b\nnamespace Inner \x7b\n\x7d\n\x7d".toList) =
      [] ++ ("namespace Outer.Namespace \x7b\nnamespace Inner \x7b\n\x7d\n\x7d".toList) ::
        tailAnchors ("namespace Outer.Namespace \x7b\nnamespace Inner \x7b\n\x7d\n\x7d".toList) ∧
    (∀ b ∈ anchorsOf ("namespace Outer.Namespace \x7b\nnamespace Inner \x7b\n\x7d\n\x7d".toList),
        matchCsDecl ';' b = none) ∧
    matchCsDecl '\x7b' ("namespace Outer.Namespace \x7b\nnamespace Inner \x7b\n\x7d\n\x7d".toList) =
      some ("Outer.Namespace".toList) ∧
    extract_csharp_namespace
        ("namespace Outer.Namespace \x7b\nnamespace Inner \x7b\n\x7d\n\x7d".toList) =
      "Outer.Namespace".toList := by
  refine ⟨rfl, by decide, by decide, ?_⟩
  exact C4_extraction_order.1
    ("namespace Outer.Namespace \x7b\nnamespace Inner \x7b\n\x7d\n\x7d".toList)
    [] _ _ ("Outer.Namespace".toList) rfl (by decide) (by simp) (by decide)

/-- C5: `extract_namespace` returns the sentinel on empty or
whitespace-only content and on unrecognised file extensions, and strips
comments before matching — a file whose only declaration is inside a
`//` comment yields the sentinel, while a commented-out declaration next
to a real one does not hide the real one. -/
theorem C5_extract_namespace_comment_stripping :
    (∀ content filepath : List Char,
        pyStrip content = [] →
        extract_namespace content filepath = "(global)".toList) ∧
    extract_namespace ("// namespace Commented.Out".toList) ("a.cs".toList) =
      "(global)".toList ∧
    extract_namespace
        ("// namespace Commented.Out\nnamespace Real.Namespace \x7b\n\x7d".toList)
        ("a.cs".toList) = "Real.Namespace".toList ∧
    (∀ content filepath : List Char,
        endsWithL filepath (".cs".toList) = false →
        endsWithL filepath (".vb".toList) = false →
        extract_namespace content filepath = "(global)".toList) := by
  refine ⟨?_, by decide, by decide, ?_⟩
  · intro content filepath h
    unfold extract_namespace
    rw [if_pos h]
  · intro content filepath hcs hvb
    unfold extract_namespace
    by_cases h : pyStrip content = []
    · rw [if_pos h]
    · rw [if_neg h]
      simp only [hcs, hvb, Bool.false_eq_true, if_false]

/-- C5, witness: whitespace-only content yields the sentinel, and a
`.txt` file yields the sentinel even though its content contains a
namespace declaration. -/
theorem C5_extract_namespace_witness :
    (pyStrip ("  \n ".toList) = [] ∧
      extract_namespace ("  \n ".toList) ("f.cs".toList) = "(global)".toList) ∧
    (endsWithL ("f.txt".toList) (".cs".toList) = false ∧
      endsWithL ("f.txt".toList) (".vb".toList) = false ∧
      extract_namespace ("namespace X \x7b".toList) ("f.txt".toList) =
        "(global)".toList) := by
  refine ⟨⟨by decide, ?_⟩, ⟨by decide, by decide, ?_⟩⟩
  · exact C5_extract_namespace_comment_stripping.1 _ _ (by decide)
  · exact C5_extract_namespace_comment_stripping.2.2.2 _ _ (by decide) (by decide)

/-! ### Aggregator lemmas (for C3 and C7) -/

/-- Appending a fresh entry to a dict: reads of other keys are
unchanged; a previously absent key now reads the new value. -/
theorem lookupNS_append (ns k : String) (v : NSAgg)
    (l : List (String × NSAgg)) :
    lookupNS ns (l ++ [(k, v)]) =
      (match lookupNS ns l with
       | some w => some w
       | none => if k = ns then some v else none) := by
  induction l with
  | nil => simp [lookupNS]
  | cons e rest ih =>
    obtain ⟨k', v'⟩ := e
    by_cases h : k' = ns
    · simp [lookupNS, h]
    · simp [lookupNS, h, ih]

/-- Updating a key's value: reads of that key see the update, reads of
other keys are unchanged. -/
theorem lookupNS_update (ns k : String) (f : NSAgg → NSAgg)
    (l : List (String × NSAgg)) :
    lookupNS ns (updateNS k f l) =
      if k = ns then (lookupNS ns l).map f else lookupNS ns l := by
  induction l with
  | nil => simp [lookupNS, updateNS]
  | cons e rest ih =>
    obtain ⟨k', v'⟩ := e
    simp only [updateNS]
    by_cases h1 : k' = k
    · subst h1
      by_cases h2 : k' = ns
      · subst h2
        simp [lookupNS]
      · simp [lookupNS, h2, ih]
    · by_cases h2 : k' = ns
      · subst h2
        have h3 : ¬(k = k') := fun h => h1 h.symm
        simp [lookupNS, h1, h3]
      · simp [lookupNS, h1, h2, ih]

/-- Finalisation keeps keys and applies `finAgg` to values. -/
theorem lookupNS_map_fin (ns : String) (l : List (String × NSAgg)) :
    lookupNS ns (l.map finalizeAgg) = (lookupNS ns l).map finAgg := by
  induction l with
  | nil => rfl
  | cons e rest ih =>
    obtain ⟨k, v⟩ := e
    by_cases h : k = ns <;> simp [lookupNS, finalizeAgg, h, ih]

/-- The function `insertDesc` inserts without disturbing the other elements. -/
theorem insertDesc_perm (x : FileDetail) (l : List FileDetail) :
    List.Perm (insertDesc x l) (x :: l) := by
  induction l with
  | nil => rfl
  | cons y ys ih =>
    unfold insertDesc
    by_cases h : y.total > x.total
    · rw [if_pos h]
      exact (ih.cons y).trans (List.Perm.swap x y ys)
    · rw [if_neg h]

/-- The sort is a permutation of its input. -/
theorem sortDesc_perm (l : List FileDetail) : List.Perm (sortDesc l) l := by
  induction l with
  | nil => rfl
  | cons x xs ih =>
    exact (insertDesc_perm x (sortDesc xs)).trans (ih.cons x)

/-- Inserting into a descending list keeps it descending. -/
theorem insertDesc_pairwise (x : FileDetail) (l : List FileDetail)
    (h : List.Pairwise (fun a b => b.total ≤ a.total) l) :
    List.Pairwise (fun a b => b.total ≤ a.total) (insertDesc x l) := by
  induction l with
  | nil => simp [insertDesc]
  | cons y ys ih =>
    obtain ⟨hy, hys⟩ := List.pairwise_cons.mp h
    unfold insertDesc
    by_cases hcmp : y.total > x.total
    · rw [if_pos hcmp]
      refine List.Pairwise.cons ?_ (ih hys)
      intro z hz
      rcases List.mem_cons.mp ((insertDesc_perm x ys).mem_iff.mp hz) with
        rfl | hzys
      · exact Nat.le_of_lt hcmp
      · exact hy z hzys
    · rw [if_neg hcmp]
      refine List.Pairwise.cons ?_ (List.Pairwise.cons hy hys)
      intro z hz
      rcases List.mem_cons.mp hz with rfl | hzys
      · exact Nat.not_lt.mp hcmp
      · exact Nat.le_trans (hy z hzys) (Nat.not_lt.mp hcmp)

/-- The sort output is descending by `total`. -/
theorem sortDesc_pairwise (l : List FileDetail) :
    List.Pairwise (fun a b => b.total ≤ a.total) (sortDesc l) := by
  induction l with
  | nil => simp [sortDesc]
  | cons x xs ih => exact insertDesc_pairwise x (sortDesc xs) ih

/-- Stability of the insertion: the sub-list of elements with any given
`total` is unchanged. -/
theorem insertDesc_filter (x : FileDetail) (l : List FileDetail) (t : Nat) :
    (insertDesc x l).filter (fun f => f.total == t) =
      ((x :: l).filter (fun f => f.total == t)) := by
  induction l with
  | nil => rfl
  | cons y ys ih =>
    unfold insertDesc
    by_cases hcmp : y.total > x.total
    · rw [if_pos hcmp]
      by_cases hx : x.total = t
      · have hy : ¬(y.total = t) := by omega
        simp [List.filter_cons, beq_iff_eq, hx, hy, ih]
      · simp [List.filter_cons, beq_iff_eq, hx, ih]
    · rw [if_neg hcmp]

/-- Stability of the sort: for every value `t` of the key, the elements
with that key value appear in their original relative order. -/
theorem sortDesc_filter (l : List FileDetail) (t : Nat) :
    (sortDesc l).filter (fun f => f.total == t) =
      l.filter (fun f => f.total == t) := by
  induction l with
  | nil => rfl
  | cons x xs ih =>
    rw [sortDesc, insertDesc_filter]
    simp only [List.filter_cons]
    rw [ih]

/-- Totals of the generated file details sum to the additions plus the
deletions of the generating changes. -/
theorem sum_mkFD_total (l : List Change) :
    ((l.map mkFD).map FileDetail.total).sum =
      (l.map Change.additions).sum + (l.map Change.deletions).sum := by
  induction l with
  | nil => rfl
  | cons c cs ih =>
    simp only [List.map_cons, List.sum_cons, mkFD, ih]
    omega

/-- The fold of `aggregate_with_details` (before finalisation) computes,
for every namespace present, exactly the input-order file list, the
per-namespace sums of additions and deletions, their sum as `total`,
and the number of contributing changes as `file_count`; a namespace
absent from the dict has no input tuples. -/
theorem foldAgg_spec (changes : List Change) (ns : String) :
    (lookupNS ns (changes.foldl stepAgg []) = none →
        changes.filter (fun c => c.ns == ns) = []) ∧
    (∀ agg, lookupNS ns (changes.foldl stepAgg []) = some agg →
        agg.files = inputFiles ns changes ∧
        agg.additions = sumAdds ns changes ∧
        agg.deletions = sumDels ns changes ∧
        agg.total = agg.additions + agg.deletions ∧
        agg.file_count = (changes.filter (fun c => c.ns == ns)).length) := by
  induction changes using List.reverseRecOn with
  | nil =>
    exact ⟨fun _ => rfl, fun agg h => absurd h (by simp [lookupNS])⟩
  | append_singleton l c ih =>
    obtain ⟨ihn, ihs⟩ := ih
    have hstep : (l ++ [c]).foldl stepAgg [] =
        stepAgg (l.foldl stepAgg []) c := by
      rw [List.foldl_append, List.foldl_cons, List.foldl_nil]
    have hfilter : (l ++ [c]).filter (fun x => x.ns == ns) =
        l.filter (fun x => x.ns == ns) ++
          (if c.ns = ns then [c] else []) := by
      by_cases h : c.ns = ns <;> simp [List.filter_append, h]
    have hinput : inputFiles ns (l ++ [c]) =
        inputFiles ns l ++ (if c.ns = ns then [mkFD c] else []) := by
      unfold inputFiles
      rw [hfilter, List.map_append]
      by_cases h : c.ns = ns <;> simp [h]
    have hsumA : sumAdds ns (l ++ [c]) =
        sumAdds ns l + (if c.ns = ns then c.additions else 0) := by
      unfold sumAdds
      rw [hfilter, List.map_append, List.sum_append]
      by_cases h : c.ns = ns <;> simp [h]
    have hsumD : sumDels ns (l ++ [c]) =
        sumDels ns l + (if c.ns = ns then c.deletions else 0) := by
      unfold sumDels
      rw [hfilter, List.map_append, List.sum_append]
      by_cases h : c.ns = ns <;> simp [h]
    have hlen : ((l ++ [c]).filter (fun x => x.ns == ns)).length =
        (l.filter (fun x => x.ns == ns)).length +
          (if c.ns = ns then 1 else 0) := by
      rw [hfilter, List.length_append]
      by_cases h : c.ns = ns <;> simp [h]
    rw [hstep]
    rcases hc : lookupNS c.ns (l.foldl stepAgg []) with _ | agg0
    · -- first sight of `c.ns`: a fresh entry is appended
      simp only [stepAgg, hc]
      constructor
      · intro hnone
        rw [lookupNS_append] at hnone
        rcases hq : lookupNS ns (l.foldl stepAgg []) with _ | w
        · rw [hq] at hnone
          rw [hfilter, ihn hq]
          by_cases hcn : c.ns = ns
          · rw [if_pos hcn] at hnone
            exact absurd hnone (by simp)
          · simp [hcn]
        · rw [hq] at hnone
          exact absurd hnone (by simp)
      · intro agg h
        rw [lookupNS_append] at h
        rcases hq : lookupNS ns (l.foldl stepAgg []) with _ | w
        · rw [hq] at h
          by_cases hcn : c.ns = ns
          · rw [if_pos hcn] at h
            injection h with h
            subst h
            have hfl : l.filter (fun x => x.ns == ns) = [] := ihn hq
            have hA0 : sumAdds ns l = 0 := by unfold sumAdds; rw [hfl]; rfl
            have hD0 : sumDels ns l = 0 := by unfold sumDels; rw [hfl]; rfl
            have hI0 : inputFiles ns l = [] := by
                unfold inputFiles; rw [hfl]; rfl
            refine ⟨?_, ?_, ?_, rfl, ?_⟩
            · rw [hinput, hI0]
              simp [hcn]
            · rw [hsumA, hA0]
              simp [hcn]
            · rw [hsumD, hD0]
              simp [hcn]
            · rw [hlen, hfl]
              simp [hcn]
          · rw [if_neg hcn] at h
            exact absurd h (by simp)
        · rw [hq] at h
          injection h with h
          subst h
          have hne : ¬(c.ns = ns) := fun hh => by
            rw [hh, hq] at hc
            exact Option.noConfusion hc
          obtain ⟨h1, h2, h3, h4, h5⟩ := ihs w hq
          refine ⟨?_, ?_, ?_, h4, ?_⟩
          · rw [hinput]
            simp [hne, h1]
          · rw [hsumA]
            simp [hne, h2]
          · rw [hsumD]
            simp [hne, h3]
          · rw [hlen]
            simp [hne, h5]
    · -- `c.ns` already present: its entry is updated in place
      simp only [stepAgg, hc]
      constructor
      · intro hnone
        rw [lookupNS_update] at hnone
        by_cases hcn : c.ns = ns
        · rw [if_pos hcn] at hnone
          rw [← hcn, hc] at hnone
          exact absurd hnone (by simp)
        · rw [if_neg hcn] at hnone
          rw [hfilter, ihn hnone]
          simp [hcn]
      · intro agg h
        rw [lookupNS_update] at h
        by_cases hcn : c.ns = ns
        · subst hcn
          rw [if_pos rfl, hc] at h
          simp only [Option.map_some'] at h
          obtain rfl := Option.some.injEq .. ▸ h
          obtain ⟨h1, h2, h3, h4, h5⟩ := ihs agg0 hc
          refine ⟨?_, ?_, ?_, ?_, ?_⟩
          · show agg0.files ++ [mkFD c] = _
            rw [hinput]
            simp [h1]
          · show agg0.additions + c.additions = _
            rw [hsumA]
            simp [h2]
          · show agg0.deletions + c.deletions = _
            rw [hsumD]
            simp [h3]
          · show agg0.total + (c.additions + c.deletions) = _
            simp only []
            omega
          · show agg0.file_count + 1 = _
            rw [hlen]
            simp [h5]
        · rw [if_neg hcn] at h
          obtain ⟨h1, h2, h3, h4, h5⟩ := ihs agg h
          refine ⟨?_, ?_, ?_, h4, ?_⟩
          · rw [hinput]
            simp [hcn, h1]
          · rw [hsumA]
            simp [hcn, h2]
          · rw [hsumD]
            simp [hcn, h3]
          · rw [hlen]
            simp [hcn, h5]

/-- C3: every aggregate produced by `aggregate_with_details` satisfies
`total = additions + deletions = sum of its files' totals`, with
`additions` and `deletions` the per-namespace sums of the input tuples
(and `file_count` the number of files). -/
theorem C3_aggregate_invariants (changes : List Change) (ns : String)
    (agg : NSAgg)
    (h : lookupNS ns (aggregate_with_details changes) = some agg) :
    agg.total = agg.additions + agg.deletions ∧
    agg.total = (agg.files.map FileDetail.total).sum ∧
    agg.additions = sumAdds ns changes ∧
    agg.deletions = sumDels ns changes ∧
    agg.file_count = agg.files.length := by
  rw [aggregate_with_details, lookupNS_map_fin] at h
  rcases hq : lookupNS ns (changes.foldl stepAgg []) with _ | agg0
  · rw [hq] at h
    exact absurd h (by simp)
  · rw [hq] at h
    simp only [Option.map_some'] at h
    obtain rfl := Option.some.injEq .. ▸ h
    obtain ⟨h1, h2, h3, h4, h5⟩ := (foldAgg_spec changes ns).2 agg0 hq
    have hsum : ((sortDesc agg0.files).map FileDetail.total).sum =
        (agg0.files.map FileDetail.total).sum :=
      ((sortDesc_perm agg0.files).map FileDetail.total).sum_eq
    have hlen : (sortDesc agg0.files).length = agg0.files.length :=
      (sortDesc_perm agg0.files).length_eq
    refine ⟨h4, ?_, h2, h3, ?_⟩
    · show agg0.total = ((sortDesc agg0.files).map FileDetail.total).sum
      rw [hsum, h1]
      unfold inputFiles
      rw [sum_mkFD_total, h4, h2, h3]
      unfold sumAdds sumDels
      rfl
    · show agg0.file_count = (sortDesc agg0.files).length
      rw [hlen, h1]
      unfold inputFiles
      rw [List.length_map]
      exact h5

/-- C3, witness: the single-record instance — aggregating one record
for namespace `X` with 45 additions and 23 deletions yields additions
45, deletions 23, total 68 = 45 + 23, file count 1. -/
theorem C3_aggregate_invariants_witness :
    lookupNS ("X") (aggregate_with_details [⟨"X", 45, 23, "p"⟩]) =
      some ⟨45, 23, 68, 1, [⟨"p", 45, 23, 68⟩], "normal"⟩ ∧
    (68 : Nat) = 45 + 23 ∧
    (45 : Nat) = sumAdds ("X") [⟨"X", 45, 23, "p"⟩] ∧
    (23 : Nat) = sumDels ("X") [⟨"X", 45, 23, "p"⟩] := by
  have h : lookupNS ("X") (aggregate_with_details [⟨"X", 45, 23, "p"⟩]) =
      some ⟨45, 23, 68, 1, [⟨"p", 45, 23, 68⟩], "normal"⟩ := by decide
  have hc := C3_aggregate_invariants [⟨"X", 45, 23, "p"⟩] "X" _ h
  exact ⟨h, hc.1, hc.2.2.1, hc.2.2.2.1⟩

/-- C7: in every aggregate produced by `aggregate_with_details`, the
namespace's files list is sorted descending by total change volume, and
records with equal totals keep their original relative input order: for
every total value `t`, the sub-list of files with that total equals the
input-order sub-list. -/
theorem C7_files_sorted_stable (changes : List Change) (ns : String)
    (agg : NSAgg)
    (h : lookupNS ns (aggregate_with_details changes) = some agg) :
    List.Pairwise (fun a b => b.total ≤ a.total) agg.files ∧
    ∀ t : Nat, agg.files.filter (fun f => f.total == t) =
      (inputFiles ns changes).filter (fun f => f.total == t) := by
  rw [aggregate_with_details, lookupNS_map_fin] at h
  rcases hq : lookupNS ns (changes.foldl stepAgg []) with _ | agg0
  · rw [hq] at h
    exact absurd h (by simp)
  · rw [hq] at h
    simp only [Option.map_some'] at h
    obtain rfl := Option.some.injEq .. ▸ h
    obtain ⟨h1, _, _, _, _⟩ := (foldAgg_spec changes ns).2 agg0 hq
    constructor
    · exact sortDesc_pairwise agg0.files
    · intro t
      show (sortDesc agg0.files).filter _ = _
      rw [sortDesc_filter, h1]

/-- C7, witness: two files with equal totals (1 each) keep their input
order after sorting — the sub-list with total 1 equals the input-order
sub-list. -/
theorem C7_files_sorted_stable_witness :
    lookupNS ("X") (aggregate_with_details
        [⟨"X", 1, 0, "a"⟩, ⟨"X", 0, 1, "b"⟩]) =
      some ⟨1, 1, 2, 2, [⟨"a", 1, 0, 1⟩, ⟨"b", 0, 1, 1⟩], "normal"⟩ ∧
    ([⟨"a", 1, 0, 1⟩, ⟨"b", 0, 1, 1⟩] : List FileDetail).filter
        (fun f => f.total == 1) =
      (inputFiles ("X") [⟨"X", 1, 0, "a"⟩, ⟨"X", 0, 1, "b"⟩]).filter
        (fun f => f.total == 1) := by
  have h : lookupNS ("X") (aggregate_with_details
      [⟨"X", 1, 0, "a"⟩, ⟨"X", 0, 1, "b"⟩]) =
      some ⟨1, 1, 2, 2, [⟨"a", 1, 0, 1⟩, ⟨"b", 0, 1, 1⟩], "normal"⟩ := by
    decide
  exact ⟨h, (C7_files_sorted_stable _ _ _ h).2 1⟩

/-! ### Ownership lemmas (for C6) -/

/-- A successful dict read is a membership. -/
theorem lookupAuthor_mem (a : String) (v : Nat)
    (authors : List (String × Nat)) (h : lookupAuthor a authors = some v) :
    (a, v) ∈ authors := by
  induction authors with
  | nil => exact absurd h (by simp [lookupAuthor])
  | cons e rest ih =>
    obtain ⟨k, v'⟩ := e
    by_cases hk : k = a
    · subst hk
      rw [lookupAuthor, if_pos rfl] at h
      injection h with h
      subst h
      exact List.mem_cons_self _ _
    · rw [lookupAuthor, if_neg hk] at h
      exact List.mem_cons_of_mem _ (ih h)

/-- With unique keys, a membership determines the dict read. -/
theorem lookupAuthor_of_mem_nodup (k : String) (v : Nat)
    (authors : List (String × Nat)) (hmem : (k, v) ∈ authors)
    (hnd : (authors.map Prod.fst).Nodup) :
    lookupAuthor k authors = some v := by
  induction authors with
  | nil => cases hmem
  | cons e rest ih =>
    obtain ⟨k', v'⟩ := e
    rcases List.mem_cons.mp hmem with heq | hmem'
    · obtain ⟨rfl, rfl⟩ := Prod.mk.injEq .. ▸ heq
      simp [lookupAuthor]
    · have hnd' : (rest.map Prod.fst).Nodup :=
        (List.nodup_cons.mp (by simpa using hnd)).2
      have hk : ¬(k' = k) := by
        intro h
        subst h
        have : k' ∈ rest.map Prod.fst :=
          List.mem_map.mpr ⟨(k', v), hmem', rfl⟩
        exact (List.nodup_cons.mp (by simpa using hnd)).1 this
      rw [lookupAuthor, if_neg hk]
      exact ih hmem' hnd'

/-- Accumulating `lines` for author `a` changes exactly `a`'s reported
count, by `lines`. -/
theorem valueOf_bump (a b : String) (lines : Nat)
    (authors : List (String × Nat)) :
    valueOf b (bumpAuthor a lines authors) =
      valueOf b authors + (if b = a then lines else 0) := by
  induction authors with
  | nil =>
    by_cases h : b = a
    · subst h
      simp [bumpAuthor, valueOf, lookupAuthor]
    · have h' : ¬(a = b) := fun hh => h hh.symm
      simp [bumpAuthor, valueOf, lookupAuthor, h, h']
  | cons e rest ih =>
    obtain ⟨k, v⟩ := e
    by_cases hk : k = a
    · subst hk
      by_cases hb : k = b
      · subst hb
        simp [bumpAuthor, valueOf, lookupAuthor]
      · have hb' : ¬(b = k) := fun hh => hb hh.symm
        simp [bumpAuthor, valueOf, lookupAuthor, hb, hb']
    · by_cases hb : k = b
      · subst hb
        have hba : ¬(k = a) := hk
        have hba' : ¬(k = a) → ¬(k = a) := fun h => h
        simp [bumpAuthor, valueOf, lookupAuthor, hk,
          show ¬(k = a) from hk, fun hh : k = a => hk hh]
      · simp only [bumpAuthor, if_neg hk]
        simp [valueOf, lookupAuthor, hb] at ih ⊢
        exact ih

/-- Accumulating for `a` keeps the key list, except that a fresh `a` is
appended at the end. -/
theorem bump_keys (a : String) (lines : Nat)
    (authors : List (String × Nat)) :
    (bumpAuthor a lines authors).map Prod.fst =
      if a ∈ authors.map Prod.fst then authors.map Prod.fst
      else authors.map Prod.fst ++ [a] := by
  induction authors with
  | nil => simp [bumpAuthor]
  | cons e rest ih =>
    obtain ⟨k, v⟩ := e
    by_cases hk : k = a
    · subst hk
      simp [bumpAuthor]
    · have hk' : ¬(a = k) := fun hh => hk hh.symm
      by_cases hmem : a ∈ rest.map Prod.fst <;>
        simp [bumpAuthor, hk, hk', hmem, ih]

/-- Accumulating keeps the keys unique. -/
theorem bump_keys_nodup (a : String) (lines : Nat)
    (authors : List (String × Nat))
    (h : (authors.map Prod.fst).Nodup) :
    ((bumpAuthor a lines authors).map Prod.fst).Nodup := by
  rw [bump_keys]
  by_cases hmem : a ∈ authors.map Prod.fst
  · rwa [if_pos hmem]
  · rw [if_neg hmem]
    simp [List.nodup_append, h, hmem]

/-- Accumulating never leaves the dict empty. -/
theorem bump_ne_nil (a : String) (lines : Nat)
    (authors : List (String × Nat)) :
    bumpAuthor a lines authors ≠ [] := by
  cases authors with
  | nil => simp [bumpAuthor]
  | cons e rest =>
    obtain ⟨k, v⟩ := e
    by_cases hk : k = a <;> simp [bumpAuthor, hk]

/-- Accumulating `lines` raises the dict's value total by `lines`. -/
theorem bump_sum (a : String) (lines : Nat)
    (authors : List (String × Nat)) :
    ((bumpAuthor a lines authors).map Prod.snd).sum =
      (authors.map Prod.snd).sum + lines := by
  induction authors with
  | nil => simp [bumpAuthor]
  | cons e rest ih =>
    obtain ⟨k, v⟩ := e
    by_cases hk : k = a
    · subst hk
      simp [bumpAuthor]
      omega
    · simp [bumpAuthor, hk, ih]
      omega

/-- Python's `max(..., key=lambda x: x[1])` on a nonempty dict returns
an item of the dict whose value is maximal. -/
theorem pyMaxSnd_spec (x : String × Nat) (xs : List (String × Nat)) :
    ∃ m, pyMaxSnd (x :: xs) = some m ∧ m ∈ x :: xs ∧
      ∀ y ∈ x :: xs, y.2 ≤ m.2 := by
  have main : ∀ (ys : List (String × Nat)) (best : String × Nat),
      (ys.foldl (fun best y => if y.2 > best.2 then y else best) best = best ∨
       ys.foldl (fun best y => if y.2 > best.2 then y else best) best ∈ ys) ∧
      best.2 ≤ (ys.foldl (fun best y => if y.2 > best.2 then y else best) best).2 ∧
      ∀ y ∈ ys,
        y.2 ≤ (ys.foldl (fun best y => if y.2 > best.2 then y else best) best).2 := by
    intro ys
    induction ys with
    | nil => exact fun best => ⟨Or.inl rfl, Nat.le_refl _, by simp⟩
    | cons y ys ih =>
      intro best
      obtain ⟨ihm, ihb, ihy⟩ := ih (if y.2 > best.2 then y else best)
      refine ⟨?_, ?_, ?_⟩
      · rcases ihm with heq | hmem
        · rw [List.foldl_cons, heq]
          by_cases h : y.2 > best.2
          · rw [if_pos h]
            exact Or.inr (List.mem_cons_self _ _)
          · rw [if_neg h]
            exact Or.inl rfl
        · exact Or.inr (List.mem_cons_of_mem _ hmem)
      · refine Nat.le_trans ?_ ihb
        by_cases h : y.2 > best.2
        · rw [if_pos h]
          exact Nat.le_of_lt h
        · rw [if_neg h]
      · intro z hz
        rcases List.mem_cons.mp hz with rfl | hzys
        · refine Nat.le_trans ?_ ihb
          by_cases h : z.2 > best.2
          · rw [if_pos h]
          · rw [if_neg h]
            exact Nat.not_lt.mp h
        · exact ihy z hzys
  obtain ⟨hm, hb, hy⟩ := main xs x
  refine ⟨_, rfl, ?_, ?_⟩
  · rcases hm with heq | hmem
    · rw [heq]
      exact List.mem_cons_self _ _
    · exact List.mem_cons_of_mem _ hmem
  · intro y hy'
    rcases List.mem_cons.mp hy' with rfl | hmem
    · exact hb
    · exact hy y hmem

/-- The reported count of any author is bounded by any value bound for
the dict's items. -/
theorem valueOf_le_of_forall (authors : List (String × Nat)) (bound : Nat)
    (h : ∀ y ∈ authors, y.2 ≤ bound) (a : String) :
    valueOf a authors ≤ bound := by
  unfold valueOf
  rcases hl : lookupAuthor a authors with _ | v
  · exact Nat.zero_le _
  · exact h (a, v) (lookupAuthor_mem a v authors hl)

/-- Appending a fresh namespace entry: reads of other keys unchanged, a
previously absent key reads the new value. -/
theorem lookupNsAuthors_append (ns k : String) (v : List (String × Nat))
    (l : List (String × List (String × Nat))) :
    lookupNsAuthors ns (l ++ [(k, v)]) =
      (match lookupNsAuthors ns l with
       | some w => some w
       | none => if k = ns then some v else none) := by
  induction l with
  | nil => simp [lookupNsAuthors]
  | cons e rest ih =>
    obtain ⟨k', v'⟩ := e
    by_cases h : k' = ns
    · simp [lookupNsAuthors, h]
    · simp [lookupNsAuthors, h, ih]

/-- Updating a namespace entry: reads of that key see the update, other
keys are unchanged. -/
theorem lookupNsAuthors_update (ns k : String)
    (f : List (String × Nat) → List (String × Nat))
    (l : List (String × List (String × Nat))) :
    lookupNsAuthors ns (updateNsAuthors k f l) =
      if k = ns then (lookupNsAuthors ns l).map f
      else lookupNsAuthors ns l := by
  induction l with
  | nil => simp [lookupNsAuthors, updateNsAuthors]
  | cons e rest ih =>
    obtain ⟨k', v'⟩ := e
    simp only [updateNsAuthors]
    by_cases h1 : k' = k
    · subst h1
      by_cases h2 : k' = ns
      · subst h2
        simp [lookupNsAuthors]
      · simp [lookupNsAuthors, h2, ih]
    · by_cases h2 : k' = ns
      · subst h2
        have h3 : ¬(k = k') := fun h => h1 h.symm
        simp [lookupNsAuthors, h1, h3]
      · simp [lookupNsAuthors, h1, h2, ih]

/-- The map in `calculate_ownership` keeps keys and builds each entry with
`mkOwnership`. -/
theorem lookupOwnership_map (ns : String)
    (l : List (String × List (String × Nat))) :
    lookupOwnership ns (l.map (fun e => (e.1, mkOwnership e.2))) =
      (lookupNsAuthors ns l).map mkOwnership := by
  induction l with
  | nil => rfl
  | cons e rest ih =>
    obtain ⟨k, v⟩ := e
    by_cases h : k = ns <;> simp [lookupOwnership, lookupNsAuthors, h, ih]

/-- The `namespace_authors` fold of `calculate_ownership` computes, for
every namespace present, a nonempty unique-key author dict in which
every author's count is the sum of that author's observed lines for the
namespace and whose value total is the namespace's total observed
lines; a namespace absent from the dict has no observations. -/
theorem foldObs_spec (obs : List (String × String × Nat)) (ns : String) :
    (lookupNsAuthors ns (obs.foldl stepObs []) = none →
        obs.filter (fun o => o.2.1 == ns) = []) ∧
    (∀ authors, lookupNsAuthors ns (obs.foldl stepObs []) = some authors →
        authors ≠ [] ∧
        (authors.map Prod.fst).Nodup ∧
        (∀ a, valueOf a authors =
          ((obs.filter (fun o => o.1 == a && o.2.1 == ns)).map
              (fun o => o.2.2)).sum) ∧
        (authors.map Prod.snd).sum =
          ((obs.filter (fun o => o.2.1 == ns)).map (fun o => o.2.2)).sum) := by
  induction obs using List.reverseRecOn with
  | nil =>
    refine ⟨fun _ => rfl, fun authors h => absurd h (by simp [lookupNsAuthors])⟩
  | append_singleton l o ih =>
    obtain ⟨ihn, ihs⟩ := ih
    have hstep : (l ++ [o]).foldl stepObs [] =
        stepObs (l.foldl stepObs []) o := by
      rw [List.foldl_append, List.foldl_cons, List.foldl_nil]
    have hfilterN : (l ++ [o]).filter (fun x => x.2.1 == ns) =
        l.filter (fun x => x.2.1 == ns) ++
          (if o.2.1 = ns then [o] else []) := by
      by_cases h : o.2.1 = ns <;> simp [List.filter_append, h]
    have hfilterA : ∀ a : String,
        (l ++ [o]).filter (fun x => x.1 == a && x.2.1 == ns) =
          l.filter (fun x => x.1 == a && x.2.1 == ns) ++
            (if o.1 = a ∧ o.2.1 = ns then [o] else []) := by
      intro a
      by_cases h1 : o.1 = a <;> by_cases h2 : o.2.1 = ns <;>
        simp [List.filter_append, h1, h2]
    have hsubnil : l.filter (fun x => x.2.1 == ns) = [] →
        ∀ a : String, l.filter (fun x => x.1 == a && x.2.1 == ns) = [] := by
      intro hnil a
      rw [List.filter_eq_nil_iff] at hnil ⊢
      intro x hx
      simp only [Bool.and_eq_true, not_and]
      intro _
      exact hnil x hx
    rw [hstep]
    rcases hc : lookupNsAuthors o.2.1 (l.foldl stepObs []) with _ | authors0
    · -- first observation for namespace `o.2.1`
      simp only [stepObs, hc]
      constructor
      · intro hnone
        rw [lookupNsAuthors_append] at hnone
        rcases hq : lookupNsAuthors ns (l.foldl stepObs []) with _ | w
        · rw [hq] at hnone
          rw [hfilterN, ihn hq]
          by_cases hon : o.2.1 = ns
          · rw [if_pos hon] at hnone
            exact absurd hnone (by simp)
          · simp [hon]
        · rw [hq] at hnone
          exact absurd hnone (by simp)
      · intro authors h
        rw [lookupNsAuthors_append] at h
        rcases hq : lookupNsAuthors ns (l.foldl stepObs []) with _ | w
        · rw [hq] at h
          by_cases hon : o.2.1 = ns
          · rw [if_pos hon] at h
            injection h with h
            subst h
            have hnil := ihn hq
            have hnila := hsubnil hnil
            refine ⟨by simp [bumpAuthor], by simp [bumpAuthor], ?_, ?_⟩
            · intro a
              rw [valueOf_bump, hfilterA a, hnila a]
              by_cases ha : o.1 = a
              · rw [if_pos ha.symm, if_pos ⟨ha, hon⟩]
                simp [valueOf, lookupAuthor]
              · rw [if_neg (fun hh => ha hh.symm),
                    if_neg (fun hh => ha hh.1)]
                simp [valueOf, lookupAuthor]
            · rw [bump_sum, hfilterN, hnil]
              simp [hon]
          · rw [if_neg hon] at h
            exact absurd h (by simp)
        · rw [hq] at h
          injection h with h
          subst h
          have hne : ¬(o.2.1 = ns) := fun hh => by
            rw [hh, hq] at hc
            exact Option.noConfusion hc
          obtain ⟨h1, h2, h3, h4⟩ := ihs w hq
          refine ⟨h1, h2, ?_, ?_⟩
          · intro a
            rw [hfilterA a]
            simp [hne, h3 a]
          · rw [hfilterN]
            simp [hne, h4]
    · -- namespace already present: its author dict is updated
      simp only [stepObs, hc]
      constructor
      · intro hnone
        rw [lookupNsAuthors_update] at hnone
        by_cases hon : o.2.1 = ns
        · rw [if_pos hon] at hnone
          rw [← hon, hc] at hnone
          exact absurd hnone (by simp)
        · rw [if_neg hon] at hnone
          rw [hfilterN, ihn hnone]
          simp [hon]
      · intro authors h
        rw [lookupNsAuthors_update] at h
        by_cases hon : o.2.1 = ns
        · subst hon
          rw [if_pos rfl, hc] at h
          simp only [Option.map_some'] at h
          obtain rfl := Option.some.injEq .. ▸ h
          obtain ⟨h1, h2, h3, h4⟩ := ihs authors0 hc
          refine ⟨bump_ne_nil _ _ _, bump_keys_nodup _ _ _ h2, ?_, ?_⟩
          · intro a
            rw [valueOf_bump, hfilterA a, h3 a]
            by_cases ha : a = o.1
            · rw [if_pos ha, if_pos ⟨ha.symm, rfl⟩]
              simp
            · rw [if_neg ha, if_neg (fun hh => ha hh.1.symm)]
              simp
          · rw [bump_sum, hfilterN, h4]
            simp
        · rw [if_neg hon] at h
          obtain ⟨h1, h2, h3, h4⟩ := ihs authors h
          refine ⟨h1, h2, ?_, ?_⟩
          · intro a
            rw [hfilterA a]
            simp [hon, h3 a]
          · rw [hfilterN]
            simp [hon, h4]

/-- C6: every entry of `calculate_ownership` reports as primary an
author achieving the maximal summed line count of its namespace, with
`primary_lines` that maximum, `total_lines` the sum over all authors,
and `ownership_percent = primary_lines / total_lines * 100` (0 when the
total is 0). -/
theorem C6_calculate_ownership
    (ac : List (String × List (String × String × Nat)))
    (ns : String) (e : OwnershipEntry)
    (h : lookupOwnership ns (calculate_ownership ac) = some e) :
    e.primary_lines = authorNsSum e.primary_author ns ac ∧
    (∀ a, authorNsSum a ns ac ≤ e.primary_lines) ∧
    e.total_lines = nsTotalSum ns ac ∧
    e.ownership_percent =
      (if e.total_lines = 0 then 0
       else (e.primary_lines : ℚ) / (e.total_lines : ℚ) * 100) := by
  rw [calculate_ownership, lookupOwnership_map] at h
  rcases hq : lookupNsAuthors ns (namespaceAuthors ac) with _ | authors
  · rw [hq] at h
    exact absurd h (by simp)
  · rw [hq] at h
    simp only [Option.map_some'] at h
    obtain rfl := Option.some.injEq .. ▸ h
    obtain ⟨hne, hnd, hval, htot⟩ := (foldObs_spec (obsOf ac) ns).2 authors hq
    obtain ⟨x, xs, hauth⟩ : ∃ x xs, authors = x :: xs := by
      cases authors with
      | nil => exact absurd rfl hne
      | cons x xs => exact ⟨x, xs, rfl⟩
    obtain ⟨m, hmax, hmem, hbound⟩ := pyMaxSnd_spec x xs
    rw [← hauth] at hmax hmem hbound
    obtain ⟨ma, mv⟩ := m
    have hlook : lookupAuthor ma authors = some mv :=
      lookupAuthor_of_mem_nodup ma mv authors hmem hnd
    have hvm : valueOf ma authors = mv := by
      unfold valueOf
      rw [hlook]
      rfl
    have hmk : mkOwnership authors =
        ⟨ma, mv, (authors.map Prod.snd).sum,
          (if (authors.map Prod.snd).sum > 0 then
             (mv : ℚ) / ((authors.map Prod.snd).sum : ℚ) * 100
           else 0), authors⟩ := by
      unfold mkOwnership
      rw [hmax]
    rw [hmk]
    refine ⟨?_, ?_, ?_, ?_⟩
    · show mv = authorNsSum ma ns ac
      rw [← hvm]
      exact hval ma
    · intro a
      show authorNsSum a ns ac ≤ mv
      rw [show authorNsSum a ns ac = valueOf a authors from (hval a).symm]
      exact valueOf_le_of_forall authors mv hbound a
    · exact htot
    · show (if (authors.map Prod.snd).sum > 0 then
             (mv : ℚ) / ((authors.map Prod.snd).sum : ℚ) * 100
           else 0) = _
      by_cases h0 : (authors.map Prod.snd).sum = 0
      · simp [h0]
      · rw [if_pos (Nat.pos_of_ne_zero h0), if_neg h0]

/-- C6, witness: author A contributes 300 lines and author B 50 lines
to namespace X — the primary author is A with 300 of 350 lines and
ownership percent 600/7 ≈ 85.7, and B's sum is bounded by A's. -/
theorem C6_calculate_ownership_witness :
    lookupOwnership ("X") (calculate_ownership
        [("A", [("X", "f1", 300)]), ("B", [("X", "f2", 50)])]) =
      some ⟨"A", 300, 350, ((300 : Nat) : ℚ) / ((350 : Nat) : ℚ) * 100,
            [("A", 300), ("B", 50)]⟩ ∧
    authorNsSum ("B") ("X")
        [("A", [("X", "f1", 300)]), ("B", [("X", "f2", 50)])] ≤ 300 ∧
    |((300 : Nat) : ℚ) / ((350 : Nat) : ℚ) * 100 - 857/10| < 1/10 := by
  have h : lookupOwnership ("X") (calculate_ownership
      [("A", [("X", "f1", 300)]), ("B", [("X", "f2", 50)])]) =
      some ⟨"A", 300, 350, ((300 : Nat) : ℚ) / ((350 : Nat) : ℚ) * 100,
            [("A", 300), ("B", 50)]⟩ := rfl
  refine ⟨h, ?_, by norm_num [abs_lt]⟩
  exact (C6_calculate_ownership _ ("X") _ h).2.1 ("B")

/-- C8: the threshold filter is inclusive at the boundary — both
`filter_by_threshold` (legacy aggregates) and the inline enhanced-mode
filter of `analyze` retain a namespace iff its total changed-line count
is at least the threshold; a namespace whose total exactly equals the
threshold (the concrete conjunct, total = threshold = 100) is
retained. -/
theorem C8_threshold_filter_inclusive :
    (∀ (aggregated : List (String × LegacyAgg)) (min_threshold : Nat) x,
        x ∈ filter_by_threshold aggregated min_threshold ↔
          x ∈ aggregated ∧ min_threshold ≤ x.2.lines_changed) ∧
    (∀ (aggregated : List (String × NSAgg)) (min_threshold : Nat) x,
        x ∈ filterEnhancedByThreshold aggregated min_threshold ↔
          x ∈ aggregated ∧ min_threshold ≤ x.2.total) ∧
    ("N", (⟨100, 1, []⟩ : LegacyAgg)) ∈
      filter_by_threshold [("N", ⟨100, 1, []⟩)] 100 := by
  refine ⟨?_, ?_, by decide⟩ <;>
    · intro aggregated min_threshold x
      simp [filter_by_threshold, filterEnhancedByThreshold, List.mem_filter]

/-- C9, counterexample: the claim says no glyph is shown when the total
is at most 500, but `get_indicator` returns the (non-empty) check glyph
`✓` there, e.g. at total 200 — exactly what the repository's own test
for `get_combined_indicator` expects. -/
theorem C9_counterexample :
    get_indicator 200 = "✓" ∧ "✓" ≠ "" := by
  constructor <;> decide

/-- C9, amended: the severity glyph has exactly three tiers — `🔥` iff
total > 1000, `⚠️` iff 500 < total ≤ 1000, and the check glyph `✓`
(not an empty indicator) otherwise; the summary line counts as hotspots
exactly the entries carrying the `🔥` glyph (total > 1000) and as
warnings exactly those carrying `⚠️` (500 < total ≤ 1000). -/
theorem C9_indicator_tiers :
    (∀ n : Nat,
        (get_indicator n = "🔥" ↔ 1000 < n) ∧
        (get_indicator n = "⚠️" ↔ 500 < n ∧ n ≤ 1000) ∧
        (get_indicator n = "✓" ↔ n ≤ 500)) ∧
    (∀ data : List (String × NSAgg),
        hotspotCount data =
          (data.filter (fun e => get_indicator e.2.total == "🔥")).length ∧
        warningCount data =
          (data.filter (fun e => get_indicator e.2.total == "⚠️")).length) := by
  have htier : ∀ n : Nat,
      (get_indicator n = "🔥" ↔ 1000 < n) ∧
      (get_indicator n = "⚠️" ↔ 500 < n ∧ n ≤ 1000) ∧
      (get_indicator n = "✓" ↔ n ≤ 500) := by
    intro n
    unfold get_indicator HOTSPOT_THRESHOLD WARNING_THRESHOLD
    split_ifs with hh hw <;>
      refine ⟨⟨?_, ?_⟩, ⟨?_, ?_⟩, ⟨?_, ?_⟩⟩ <;>
      intro h <;>
      first
        | rfl
        | omega
        | (exact absurd h (by decide))
  refine ⟨htier, fun data => ⟨?_, ?_⟩⟩
  · rw [hotspotCount, List.countP_eq_length_filter]
    congr 1
    refine List.filter_congr fun e _ => ?_
    have h1 := (htier e.2.total).1
    rcases Nat.lt_or_ge 1000 e.2.total with h | h
    · have hg : get_indicator e.2.total = "🔥" := h1.mpr h
      simp [h, hg]
    · have hne : get_indicator e.2.total ≠ "🔥" :=
        fun hx => absurd (h1.mp hx) (by omega)
      simp [show ¬ (e.2.total > 1000) by omega, hne]
  · rw [warningCount, List.countP_eq_length_filter]
    congr 1
    refine List.filter_congr fun e _ => ?_
    have h2 := (htier e.2.total).2.1
    by_cases h : 500 < e.2.total ∧ e.2.total ≤ 1000
    · have hg : get_indicator e.2.total = "⚠️" := h2.mpr h
      simp [h, hg]
    · have hne : get_indicator e.2.total ≠ "⚠️" :=
        fun hx => absurd (h2.mp hx) h
      simp [h, hne]

/-- C10: a period string that is not one of the three fixed literals
makes `analyze` raise the invalid-period error whatever the rest of the
run (in particular the external git commands, abstracted by `rest`)
would have produced, and `main` maps any raised error to exit code 1
with an `Error: ...` message on the error stream and a normal return to
exit code 0. -/
theorem C10_period_validation :
    (∀ (period : String) (rest : Except String String),
        is_valid_period period = false →
        analyzeChecked period rest = Except.error invalidPeriodMessage ∧
        mainExitCode (analyzeChecked period rest) = 1 ∧
        mainStderr (analyzeChecked period rest) =
          some ("Error: " ++ invalidPeriodMessage)) ∧
    (∀ period : String,
        is_valid_period period = true ↔
          period = "1 month" ∨ period = "3 months" ∨ period = "1 year") ∧
    (∀ out : String, mainExitCode (Except.ok out) = 0) ∧
    (∀ msg : String,
        mainExitCode (Except.error msg) = 1 ∧
        mainStderr (Except.error msg) = some ("Error: " ++ msg)) := by
  refine ⟨?_, ?_, fun _ => rfl, fun _ => ⟨rfl, rfl⟩⟩
  · intro period rest h
    have : analyzeChecked period rest = Except.error invalidPeriodMessage := by
      unfold analyzeChecked
      rw [if_pos]
      simp [h]
    exact ⟨this, by rw [this]; rfl, by rw [this]; rfl⟩
  · intro period
    simp only [is_valid_period, VALID_PERIODS, List.contains_eq_any_beq,
      List.any_cons, List.any_nil, Bool.or_eq_true, beq_iff_eq,
      Bool.or_false]

/-- C10, witness: `"2 months"` is not a valid period; the run errors
with exit code 1 and the invalid-period message regardless of what the
external git step would have returned. -/
theorem C10_period_validation_witness :
    is_valid_period ("2 months") = false ∧
    analyzeChecked ("2 months") (Except.ok ("report")) =
      Except.error invalidPeriodMessage ∧
    mainExitCode (analyzeChecked ("2 months") (Except.ok ("report"))) = 1 := by
  have h : is_valid_period ("2 months") = false := by decide
  have := C10_period_validation.1 ("2 months") (Except.ok ("report")) h
  exact ⟨h, this.1, this.2.1⟩

end ChurnScript
